import Mathlib

/-!
Verification development for the gin-fileuploader upload storage engine.

The data model (`FileInfo`, `HTTPResponse` with its `MergeWith` method) is a
shallow embedding of `src/common/types.go`.  The storage engine itself
(`IStorage` / `IUpload` of the storage package) is declared in the repository
only as Go interfaces; its behaviour is therefore modelled here from the
specification (spec.md §3-§4.7), as noted on each definition.
Go `int64` fields are embedded as `Int`, byte strings as `List Nat`,
Go maps as association lists, and timestamps as `Nat`.
-/

namespace GinFileUploader

/-- Embeds `common.FileInfo` (src/common/types.go): the metadata record of one
upload.  Field names follow the Go struct. -/
structure FileInfo where
  ID : String
  Size : Int
  SizeIsDeferred : Bool
  Offset : Int
  MetaData : List (String × String)
  IsPartial : Bool
  IsFinal : Bool
  PartialIDs : List String
  CreateTime : Nat
deriving DecidableEq

/-- Embeds `common.HTTPResponse` (src/common/types.go).  The Go
`map[string]string` header map is embedded as an association list with
distinct keys. -/
structure HTTPResponse where
  StatusCode : Int
  Body : String
  Headers : List (String × String)
deriving DecidableEq

/-- Association-list lookup: the value stored under key `k` (Go map read). -/
def lookupKey {α : Type} (l : List (String × α)) (k : String) : Option α :=
  match l with
  | [] => none
  | p :: rest => if p.1 = k then some p.2 else lookupKey rest k

/-- Association-list store: set key `k` to `v`, replacing an existing binding
(Go `map[k] = v` as performed by `headers.Set` / map assignment). -/
def upsertKey {α : Type} (l : List (String × α)) (k : String) (v : α) : List (String × α) :=
  match l with
  | [] => [(k, v)]
  | p :: rest => if p.1 = k then (k, v) :: rest else p :: upsertKey rest k v

/-- Association-list delete of key `k` (Go `delete(m, k)`). -/
def removeKey {α : Type} (l : List (String × α)) (k : String) : List (String × α) :=
  match l with
  | [] => []
  | p :: rest => if p.1 = k then removeKey rest k else p :: removeKey rest k

/-- Embeds `HTTPResponse.MergeWith` (src/common/types.go lines 75-96):
clone `resp`, override `StatusCode` when `resp2.StatusCode` is nonzero,
override `Body` when `resp2.Body` is non-empty, and build a fresh header map
holding `resp`'s entries and then `resp2`'s entries (`resp2` wins on
conflicts), mirroring the two `range` loops of the Go code. -/
def HTTPResponse.MergeWith (resp resp2 : HTTPResponse) : HTTPResponse :=
  { StatusCode := if resp2.StatusCode ≠ 0 then resp2.StatusCode else resp.StatusCode
    Body := if 0 < resp2.Body.length then resp2.Body else resp.Body
    Headers :=
      resp2.Headers.foldl (fun m kv => upsertKey m kv.1 kv.2)
        (resp.Headers.foldl (fun m kv => upsertKey m kv.1 kv.2) []) }

/-- The error taxonomy of the storage engine, from spec.md §7.  `ModifyFinal`
names the rejection of a chunk write on a concatenation-produced final upload
(the §4.3 precondition "record is not a concatenation-produced final upload");
§7 leaves that rejection unnamed. -/
inductive StorageError where
  | NotFound
  | OffsetMismatch
  | SizeExceeded
  | LengthAlreadyFixed
  | ChecksumMismatch
  | LockBusy
  | PartialNotFound
  | PartialIncomplete
  | PartialAlreadyFinal
  | InvalidMetadata
  | ModifyFinal
deriving DecidableEq

/-- Embeds the payload of `common.HookEvent` as delivered to completion
subscribers (spec.md §4.7: upload ID, final size, final offset, metadata). -/
structure CompletionEvent where
  uploadID : String
  finalSize : Int
  finalOffset : Int
  meta : List (String × String)
deriving DecidableEq

/-- Modelled from the spec: one upload's durable state — its metadata record
(§3), its stored bytes, whether its completion event has already fired (§4.7),
and its last-activity timestamp (§4.6).  The engine implementation behind the
`IUpload` interface is not part of the source fragment. -/
structure Upload where
  info : FileInfo
  content : List Nat
  completeFired : Bool
  lastActivity : Nat
deriving DecidableEq

/-- Modelled from the spec: the engine state behind `IStorage` — the live
records keyed by upload ID, plus the set of IDs ever assigned (`usedIds`),
which never shrinks because "IDs are never reused" (§3). -/
structure Store where
  records : List (String × Upload)
  usedIds : List String
deriving DecidableEq

/-- Modelled from the spec: the per-chunk checksum (§6 leaves the algorithm
set open; the claims only depend on match/mismatch, so a byte sum stands in
for the declared algorithm). -/
def checksumOf (data : List Nat) : Nat := data.sum

/-- Whether an optional expected checksum disagrees with the received data. -/
def checksumBad (expected : Option Nat) (data : List Nat) : Bool :=
  match expected with
  | none => false
  | some c => c != checksumOf data

/-- The completion event emitted for upload `id` whose record is `info` at the
moment of completion (§4.7). -/
def mkEvent (id : String) (info : FileInfo) : CompletionEvent :=
  { uploadID := id, finalSize := info.Size, finalOffset := info.Offset, meta := info.MetaData }

/-- Modelled from the spec: a freshly created record (§4.1 "create … → new
Upload Record with offset 0"), with empty content and its creation time as
initial last-activity time (§4.6). -/
def freshUpload (info : FileInfo) : Upload :=
  { info := { info with Offset := 0 }
    content := []
    completeFired := false
    lastActivity := info.CreateTime }

/-- Modelled from the spec: `IStorage.NewUpload` / create (§4.1).  Creation
rejects a malformed declaration (`InvalidMetadata`): a declared negative size
violates the §3 invariant `0 ≤ offset ≤ size`, and an ID that was ever
assigned before violates "IDs are never reused" (§3). -/
def newUpload (s : Store) (info : FileInfo) : Except StorageError Store :=
  if info.ID ∈ s.usedIds then .error .InvalidMetadata
  else if info.SizeIsDeferred = false ∧ info.Size < 0 then .error .InvalidMetadata
  else .ok { records := (info.ID, freshUpload info) :: s.records
             usedIds := info.ID :: s.usedIds }

/-- The record after a successful chunk write (§4.3): bytes appended, offset
advanced atomically with them, last-activity time refreshed; the
completion flag latches once the offset reaches a known size. -/
def writtenUpload (u : Upload) (data : List Nat) (now : Nat) : Upload :=
  { info := { u.info with Offset := u.info.Offset + (data.length : Int) }
    content := u.content ++ data
    completeFired :=
      if u.info.SizeIsDeferred = false ∧ u.info.Offset + (data.length : Int) = u.info.Size then
        true
      else u.completeFired
    lastActivity := now }

/-- The completion event (if any) fired by a successful chunk write: fired
exactly when the write makes the offset reach a known size and the event has
not fired before (§4.7 at-most-one logical completion). -/
def writeEvent (id : String) (u : Upload) (data : List Nat) : Option CompletionEvent :=
  if u.info.SizeIsDeferred = false ∧ u.info.Offset + (data.length : Int) = u.info.Size
      ∧ u.completeFired = false then
    some (mkEvent id { u.info with Offset := u.info.Offset + (data.length : Int) })
  else none

/-- Modelled from the spec: `IUpload.WriteChunk` (§4.3, §6, §4.7).  Validation
order: unknown ID is `NotFound`; an offset different from the record's current
offset is `OffsetMismatch` ("any mismatch is OffsetMismatch", checked before
anything about the record's kind or payload, as the resumption check precedes
processing of the body); a concatenation-produced final upload has no chunk
write path (`ModifyFinal`); a mismatching expected checksum is
`ChecksumMismatch` (§6); writing past a known size is `SizeExceeded`.  A
successful write installs `writtenUpload` and fires `writeEvent`. -/
def writeChunk (s : Store) (id : String) (offset : Int) (data : List Nat)
    (expected : Option Nat) (now : Nat) :
    Except StorageError (Store × Int × Option CompletionEvent) :=
  match lookupKey s.records id with
  | none => .error .NotFound
  | some u =>
    if offset ≠ u.info.Offset then .error .OffsetMismatch
    else if u.info.IsFinal = true ∧ u.info.PartialIDs ≠ [] then .error .ModifyFinal
    else if checksumBad expected data = true then .error .ChecksumMismatch
    else if u.info.SizeIsDeferred = false ∧ u.info.Size < u.info.Offset + (data.length : Int) then
      .error .SizeExceeded
    else
      .ok ({ s with records := upsertKey s.records id (writtenUpload u data now) },
           (data.length : Int), writeEvent id u data)

/-- The record after fixing a deferred length: the size is set and the
deferred flag cleared; the completion flag latches when the fixed size equals
the stored bytes. -/
def fixedUpload (u : Upload) (newSize : Int) : Upload :=
  { u with info := { u.info with Size := newSize, SizeIsDeferred := false }
           completeFired := if u.info.Offset = newSize then true else u.completeFired }

/-- The completion event (if any) fired by fixing a deferred length: fired
exactly when the fixed size equals the bytes already stored and the event has
not fired before (§4.7). -/
def fixEvent (id : String) (u : Upload) (newSize : Int) : Option CompletionEvent :=
  if u.info.Offset = newSize ∧ u.completeFired = false then
    some (mkEvent id { u.info with Size := newSize, SizeIsDeferred := false })
  else none

/-- Modelled from the spec: the fix-length operation of §4.3 for deferred
uploads.  The size is set exactly once (`LengthAlreadyFixed` on a second
attempt); fixing the size below the bytes already stored would break the §3
invariant `offset ≤ size` and is rejected as `SizeExceeded`. -/
def fixLength (s : Store) (id : String) (newSize : Int) :
    Except StorageError (Store × Option CompletionEvent) :=
  match lookupKey s.records id with
  | none => .error .NotFound
  | some u =>
    if u.info.SizeIsDeferred = false then .error .LengthAlreadyFixed
    else if newSize < u.info.Offset then .error .SizeExceeded
    else .ok ({ s with records := upsertKey s.records id (fixedUpload u newSize) },
              fixEvent id u newSize)

/-- Modelled from the spec: the per-input validation of the Concatenator
(§4.4): every referenced upload must exist (`PartialNotFound`), be marked
partial and not final (`PartialAlreadyFinal`), and be complete — known size
fully uploaded (`PartialIncomplete`).  On success it returns the referenced
uploads in listed order. -/
def collectPartials (s : Store) (ids : List String) : Except StorageError (List Upload) :=
  match ids with
  | [] => .ok []
  | pid :: rest =>
    match lookupKey s.records pid with
    | none => .error .PartialNotFound
    | some u =>
      if u.info.IsFinal = true ∨ u.info.IsPartial = false then .error .PartialAlreadyFinal
      else if u.info.SizeIsDeferred = true ∨ u.info.Offset ≠ u.info.Size then
        .error .PartialIncomplete
      else
        match collectPartials s rest with
        | .error e => .error e
        | .ok us => .ok (u :: us)

/-- The target record's metadata after concatenation of the uploads `us`
declared as `ids`: size and offset both become the sum of the inputs' sizes,
the record becomes final and remembers its inputs (§4.4, §3). -/
def concatInfo (t : Upload) (ids : List String) (us : List Upload) : FileInfo :=
  { t.info with Size := (us.map (fun u => u.info.Size)).sum
                Offset := (us.map (fun u => u.info.Size)).sum
                SizeIsDeferred := false
                IsFinal := true
                PartialIDs := ids }

/-- The target record after concatenation: its content is the ordered
byte-concatenation of the inputs' contents, installed atomically with the
metadata update (§4.4). -/
def concatTarget (t : Upload) (ids : List String) (us : List Upload) : Upload :=
  { info := concatInfo t ids us
    content := (us.map (fun u => u.content)).flatten
    completeFired := true
    lastActivity := t.lastActivity }

/-- The completion event (if any) fired by concatenation: finalization
completes the target, so the event fires unless it already fired (§4.7). -/
def concatEvent (targetId : String) (t : Upload) (ids : List String) (us : List Upload) :
    Option CompletionEvent :=
  if t.completeFired = false then some (mkEvent targetId (concatInfo t ids us)) else none

/-- Modelled from the spec: `IUpload.ConcatUploads` (§4.4).  The target must
exist; concatenation is "called once at creation", so a target that already
holds bytes is a double concatenation attempt (`PartialAlreadyFinal`).  After
validating every input, the target's content becomes the ordered
byte-concatenation of the inputs' contents and its size and offset become the
sum of their sizes, in one atomic state change; finalization completes the
target, so the completion event fires if it has not fired yet (§4.7). -/
def concatUploads (s : Store) (targetId : String) (ids : List String) :
    Except StorageError (Store × Option CompletionEvent) :=
  match lookupKey s.records targetId with
  | none => .error .NotFound
  | some t =>
    if t.info.Offset ≠ 0 then .error .PartialAlreadyFinal
    else
      match collectPartials s ids with
      | .error e => .error e
      | .ok us =>
        .ok ({ s with records := upsertKey s.records targetId (concatTarget t ids us) },
             concatEvent targetId t ids us)

/-- Modelled from the spec: `IUpload.Terminate` (§3 lifecycle): record and
stored bytes are removed together, irreversibly; the ID stays used forever. -/
def terminate (s : Store) (id : String) : Except StorageError Store :=
  match lookupKey s.records id with
  | none => .error .NotFound
  | some _ => .ok { s with records := removeKey s.records id }

/-- Modelled from the spec: one pass of the Expiry Sweeper over the record
list (§4.6): every record whose last-activity time is older than the
threshold (`lastActivity + maxAge < now`) is terminated — record and stored
bytes removed together; the rest survive untouched. -/
def sweepRecords (l : List (String × Upload)) (now maxAge : Nat) : List (String × Upload) :=
  match l with
  | [] => []
  | p :: rest =>
    if p.2.lastActivity + maxAge < now then sweepRecords rest now maxAge
    else p :: sweepRecords rest now maxAge

/-- Modelled from the spec: `IStorage.Cleanup` (§4.6), the expiry sweep with
age threshold `maxAge` evaluated at time `now`. -/
def cleanup (s : Store) (now maxAge : Nat) : Store :=
  { s with records := sweepRecords s.records now maxAge }

/-- Modelled from the spec: `IUpload.GetInfo` (§4.1 get): record or
`NotFound`. -/
def getInfo (s : Store) (id : String) : Except StorageError FileInfo :=
  match lookupKey s.records id with
  | none => .error .NotFound
  | some u => .ok u.info

/-- Modelled from the spec: `IUpload.GetReader` (§4.5 read): the durably
stored bytes, or `NotFound` for an unknown or terminated ID. -/
def getReader (s : Store) (id : String) : Except StorageError (List Nat) :=
  match lookupKey s.records id with
  | none => .error .NotFound
  | some u => .ok u.content

/-- Modelled from the spec: `IUpload.ServeContent` (§4.5 serve): a byte-range
read of the stored content, or `NotFound` for an unknown or terminated ID. -/
def serveContent (s : Store) (id : String) (start count : Nat) :
    Except StorageError (List Nat) :=
  match lookupKey s.records id with
  | none => .error .NotFound
  | some u => .ok ((u.content.drop start).take count)

/-- The mutating operations of the engine (spec.md §6 exposed interface),
used to speak about arbitrary operation sequences. -/
inductive Op where
  | create (info : FileInfo)
  | write (id : String) (offset : Int) (data : List Nat) (expected : Option Nat) (now : Nat)
  | setLength (id : String) (newSize : Int)
  | concat (targetId : String) (ids : List String)
  | remove (id : String)
  | sweep (now : Nat) (maxAge : Nat)

/-- One engine step: apply a mutating operation; a failed operation leaves the
state untouched and fires no event (§7: "all validation failures are rejected
before any mutation"). -/
def step (s : Store) (op : Op) : Store × Option CompletionEvent :=
  match op with
  | .create info =>
    match newUpload s info with
    | .ok s1 => (s1, none)
    | .error _ => (s, none)
  | .write id off data ex now =>
    match writeChunk s id off data ex now with
    | .ok (s1, _, ev) => (s1, ev)
    | .error _ => (s, none)
  | .setLength id z =>
    match fixLength s id z with
    | .ok (s1, ev) => (s1, ev)
    | .error _ => (s, none)
  | .concat tid ids =>
    match concatUploads s tid ids with
    | .ok (s1, ev) => (s1, ev)
    | .error _ => (s, none)
  | .remove id =>
    match terminate s id with
    | .ok s1 => (s1, none)
    | .error _ => (s, none)
  | .sweep now maxAge => (cleanup s now maxAge, none)

/-- Run a sequence of operations, collecting the completion events fired. -/
def run (s : Store) (ops : List Op) : Store × List CompletionEvent :=
  match ops with
  | [] => (s, [])
  | op :: rest =>
    let r := step s op
    let r2 := run r.1 rest
    (r2.1, r.2.toList ++ r2.2)

/-- How many of the events in `evs` are completion events of upload `id`. -/
def countFor (id : String) (evs : List CompletionEvent) : Nat :=
  (evs.filter (fun e => e.uploadID == id)).length

/-- The §3 record invariant: `0 ≤ offset`, and `offset ≤ size` whenever the
size is known. -/
def RecordOK (u : Upload) : Prop :=
  0 ≤ u.info.Offset ∧ (u.info.SizeIsDeferred = false → u.info.Offset ≤ u.info.Size)

/-- Every live record satisfies the §3 offset invariant. -/
def OffsetsOK (s : Store) : Prop := ∀ p ∈ s.records, RecordOK p.2

/-- Every live record's ID is registered as used (IDs are never reused, §3). -/
def UsedOK (s : Store) : Prop := ∀ p ∈ s.records, p.1 ∈ s.usedIds

/-- Record keys are distinct: the record list embeds a map keyed by ID. -/
def KeysOK (s : Store) : Prop := (s.records.map Prod.fst).Nodup

/-- Well-formedness of an engine state. -/
def StoreWF (s : Store) : Prop := OffsetsOK s ∧ UsedOK s ∧ KeysOK s

/-- Whether `pid` names a valid concatenation input in `s`: present, marked
partial, not final, with a known, fully uploaded size (§4.4 preconditions). -/
def goodInput (s : Store) (pid : String) : Bool :=
  match lookupKey s.records pid with
  | none => false
  | some u =>
    u.info.IsPartial && !u.info.IsFinal && !u.info.SizeIsDeferred
      && (u.info.Offset == u.info.Size)

/-- The stored content of `pid` in `s` (empty for an unknown ID). -/
def contentOf (s : Store) (pid : String) : List Nat :=
  match lookupKey s.records pid with
  | none => []
  | some u => u.content

/-- The declared size of `pid` in `s` (zero for an unknown ID). -/
def declaredSize (s : Store) (pid : String) : Int :=
  match lookupKey s.records pid with
  | none => 0
  | some u => u.info.Size

/-- A concrete in-progress upload used to evaluate the model: 5 of 10 bytes
stored. -/
def upA : Upload :=
  { info := { ID := "a", Size := 10, SizeIsDeferred := false, Offset := 5,
              MetaData := [("filename", "a.txt")], IsPartial := false, IsFinal := false,
              PartialIDs := [], CreateTime := 1 }
    content := [1, 2, 3, 4, 5]
    completeFired := false
    lastActivity := 3 }

/-- A concrete complete partial upload of 2 bytes. -/
def pUp1 : Upload :=
  { info := { ID := "p1", Size := 2, SizeIsDeferred := false, Offset := 2,
              MetaData := [], IsPartial := true, IsFinal := false,
              PartialIDs := [], CreateTime := 1 }
    content := [10, 20]
    completeFired := true
    lastActivity := 2 }

/-- A concrete complete partial upload of 1 byte. -/
def pUp2 : Upload :=
  { info := { ID := "p2", Size := 1, SizeIsDeferred := false, Offset := 1,
              MetaData := [], IsPartial := true, IsFinal := false,
              PartialIDs := [], CreateTime := 1 }
    content := [30]
    completeFired := true
    lastActivity := 2 }

/-- A concrete incomplete partial upload: 1 of 5 bytes stored. -/
def pBad : Upload :=
  { info := { ID := "p3", Size := 5, SizeIsDeferred := false, Offset := 1,
              MetaData := [], IsPartial := true, IsFinal := false,
              PartialIDs := [], CreateTime := 1 }
    content := [7]
    completeFired := false
    lastActivity := 2 }

/-- A concrete fresh concatenation target declared over `p1` and `p2`. -/
def tUp : Upload :=
  { info := { ID := "f", Size := 0, SizeIsDeferred := false, Offset := 0,
              MetaData := [], IsPartial := false, IsFinal := true,
              PartialIDs := ["p1", "p2"], CreateTime := 1 }
    content := []
    completeFired := false
    lastActivity := 2 }

/-- A concrete engine state holding the uploads above. -/
def exStore : Store :=
  { records := [("a", upA), ("p1", pUp1), ("p2", pUp2), ("p3", pBad), ("f", tUp)]
    usedIds := ["a", "p1", "p2", "p3", "f"] }

/-- A concrete HTTP response used to evaluate `MergeWith`. -/
def respEx1 : HTTPResponse :=
  { StatusCode := 200, Body := "ok", Headers := [("A", "1"), ("B", "2")] }

/-- A second concrete HTTP response used to evaluate `MergeWith`. -/
def respEx2 : HTTPResponse :=
  { StatusCode := 404, Body := "", Headers := [("B", "3"), ("C", "4")] }

instance (u : Upload) : Decidable (RecordOK u) :=
  inferInstanceAs (Decidable (0 ≤ u.info.Offset ∧
    (u.info.SizeIsDeferred = false → u.info.Offset ≤ u.info.Size)))

instance (s : Store) : Decidable (OffsetsOK s) :=
  inferInstanceAs (Decidable (∀ p ∈ s.records, RecordOK p.2))

instance (s : Store) : Decidable (UsedOK s) :=
  inferInstanceAs (Decidable (∀ p ∈ s.records, p.1 ∈ s.usedIds))

instance (s : Store) : Decidable (KeysOK s) :=
  inferInstanceAs (Decidable ((s.records.map Prod.fst).Nodup))

instance (s : Store) : Decidable (StoreWF s) :=
  inferInstanceAs (Decidable (OffsetsOK s ∧ UsedOK s ∧ KeysOK s))

/-! Association-list lemmas. -/

theorem lookupKey_eq_none_of_not_mem {α : Type} {l : List (String × α)} {k : String}
    (h : k ∉ l.map Prod.fst) : lookupKey l k = none := by
  induction l with
  | nil => rfl
  | cons p rest ih =>
    simp only [List.map_cons, List.mem_cons] at h
    push_neg at h
    have hp : ¬p.1 = k := fun hh => h.1 hh.symm
    simp only [lookupKey, if_neg hp]
    exact ih h.2

theorem not_mem_of_lookupKey_eq_none {α : Type} {l : List (String × α)} {k : String}
    (h : lookupKey l k = none) : k ∉ l.map Prod.fst := by
  induction l with
  | nil => simp
  | cons p rest ih =>
    simp only [lookupKey] at h
    by_cases hp : p.1 = k
    · simp [hp] at h
    · simp only [if_neg hp] at h
      simp only [List.map_cons, List.mem_cons]
      push_neg
      exact ⟨fun hh => hp hh.symm, ih h⟩

theorem mem_of_lookupKey_eq_some {α : Type} {l : List (String × α)} {k : String} {v : α}
    (h : lookupKey l k = some v) : (k, v) ∈ l := by
  induction l with
  | nil => simp [lookupKey] at h
  | cons p rest ih =>
    simp only [lookupKey] at h
    by_cases hp : p.1 = k
    · rw [if_pos hp] at h
      injection h with h
      have hpv : p = (k, v) := by
        cases p
        simp only [Prod.mk.injEq]
        exact ⟨hp, h⟩
      rw [← hpv]
      exact List.mem_cons_self _ _
    · rw [if_neg hp] at h
      exact List.mem_cons_of_mem _ (ih h)

theorem lookupKey_of_mem_nodup {α : Type} {l : List (String × α)} {k : String} {v : α}
    (hnd : (l.map Prod.fst).Nodup) (h : (k, v) ∈ l) : lookupKey l k = some v := by
  induction l with
  | nil => simp at h
  | cons p rest ih =>
    simp only [List.map_cons, List.nodup_cons] at hnd
    rcases List.mem_cons.mp h with h1 | h2
    · rw [← h1]
      simp [lookupKey]
    · have hk : p.1 ≠ k := by
        intro hh
        exact hnd.1 (hh ▸ (List.mem_map.mpr ⟨(k, v), h2, rfl⟩))
      simp only [lookupKey, if_neg hk]
      exact ih hnd.2 h2

theorem lookupKey_upsertKey_self {α : Type} (l : List (String × α)) (k : String) (v : α) :
    lookupKey (upsertKey l k v) k = some v := by
  induction l with
  | nil => simp [upsertKey, lookupKey]
  | cons p rest ih =>
    by_cases hp : p.1 = k
    · simp [upsertKey, if_pos hp, lookupKey]
    · simp [upsertKey, if_neg hp, lookupKey, if_neg hp, ih]

theorem lookupKey_upsertKey_ne {α : Type} {l : List (String × α)} {k k' : String} {v : α}
    (h : k' ≠ k) : lookupKey (upsertKey l k v) k' = lookupKey l k' := by
  induction l with
  | nil =>
    have hk : ¬k = k' := fun hh => h hh.symm
    simp [upsertKey, lookupKey, if_neg hk]
  | cons p rest ih =>
    by_cases hp : p.1 = k
    · have hk : k ≠ k' := fun hh => h hh.symm
      simp [upsertKey, if_pos hp, lookupKey, if_neg hk, hp]
    · simp only [upsertKey, if_neg hp, lookupKey]
      by_cases hq : p.1 = k'
      · simp [if_pos hq]
      · simp [if_neg hq, ih]

theorem mem_upsertKey {α : Type} {l : List (String × α)} {k : String} {v : α} {p : String × α}
    (h : p ∈ upsertKey l k v) : p ∈ l ∨ p = (k, v) := by
  induction l with
  | nil => simpa [upsertKey] using h
  | cons q rest ih =>
    by_cases hq : q.1 = k
    · simp only [upsertKey, if_pos hq, List.mem_cons] at h
      rcases h with h | h
      · right; exact h
      · left; exact List.mem_cons_of_mem _ h
    · simp only [upsertKey, if_neg hq, List.mem_cons] at h
      rcases h with h | h
      · left; exact List.mem_cons.mpr (Or.inl h)
      · rcases ih h with h2 | h2
        · left; exact List.mem_cons_of_mem _ h2
        · right; exact h2

theorem keys_upsertKey_present {α : Type} {l : List (String × α)} {k : String} {v₀ : α} (v : α)
    (h : lookupKey l k = some v₀) :
    (upsertKey l k v).map Prod.fst = l.map Prod.fst := by
  induction l with
  | nil => simp [lookupKey] at h
  | cons p rest ih =>
    simp only [lookupKey] at h
    by_cases hp : p.1 = k
    · simp [upsertKey, if_pos hp, hp]
    · rw [if_neg hp] at h
      simp [upsertKey, if_neg hp, ih h]

theorem keys_upsertKey_absent {α : Type} {l : List (String × α)} {k : String} (v : α)
    (h : lookupKey l k = none) :
    (upsertKey l k v).map Prod.fst = l.map Prod.fst ++ [k] := by
  induction l with
  | nil => simp [upsertKey]
  | cons p rest ih =>
    simp only [lookupKey] at h
    by_cases hp : p.1 = k
    · simp [if_pos hp] at h
    · rw [if_neg hp] at h
      simp [upsertKey, if_neg hp, ih h]

theorem lookupKey_removeKey_self {α : Type} (l : List (String × α)) (k : String) :
    lookupKey (removeKey l k) k = none := by
  induction l with
  | nil => rfl
  | cons p rest ih =>
    by_cases hp : p.1 = k
    · simpa [removeKey, if_pos hp] using ih
    · simpa [removeKey, if_neg hp, lookupKey, if_neg hp] using ih

theorem lookupKey_removeKey_ne {α : Type} {l : List (String × α)} {k k' : String}
    (h : k' ≠ k) : lookupKey (removeKey l k) k' = lookupKey l k' := by
  induction l with
  | nil => rfl
  | cons p rest ih =>
    by_cases hp : p.1 = k
    · have hq : ¬p.1 = k' := fun hh => h (hh.symm.trans hp)
      simp [removeKey, if_pos hp, lookupKey, if_neg hq, ih]
    · simp only [removeKey, if_neg hp, lookupKey]
      by_cases hq : p.1 = k'
      · simp [if_pos hq]
      · simp [if_neg hq, ih]

theorem mem_removeKey {α : Type} {l : List (String × α)} {k : String} {p : String × α}
    (h : p ∈ removeKey l k) : p ∈ l := by
  induction l with
  | nil => simpa [removeKey] using h
  | cons q rest ih =>
    by_cases hq : q.1 = k
    · simp only [removeKey, if_pos hq] at h
      exact List.mem_cons_of_mem _ (ih h)
    · simp only [removeKey, if_neg hq, List.mem_cons] at h
      rcases h with h | h
      · exact List.mem_cons.mpr (Or.inl h)
      · exact List.mem_cons_of_mem _ (ih h)

theorem keys_removeKey_sublist {α : Type} (l : List (String × α)) (k : String) :
    ((removeKey l k).map Prod.fst).Sublist (l.map Prod.fst) := by
  induction l with
  | nil => simp [removeKey]
  | cons p rest ih =>
    by_cases hp : p.1 = k
    · simp only [removeKey, if_pos hp, List.map_cons]
      exact ih.cons _
    · simp only [removeKey, if_neg hp, List.map_cons]
      exact ih.cons₂ _

theorem mem_sweepRecords {l : List (String × Upload)} {now a : Nat} {p : String × Upload}
    (h : p ∈ sweepRecords l now a) : p ∈ l := by
  induction l with
  | nil => simpa [sweepRecords] using h
  | cons q rest ih =>
    by_cases hq : q.2.lastActivity + a < now
    · simp only [sweepRecords, if_pos hq] at h
      exact List.mem_cons_of_mem _ (ih h)
    · simp only [sweepRecords, if_neg hq, List.mem_cons] at h
      rcases h with h | h
      · exact List.mem_cons.mpr (Or.inl h)
      · exact List.mem_cons_of_mem _ (ih h)

theorem keys_sweepRecords_sublist (l : List (String × Upload)) (now a : Nat) :
    ((sweepRecords l now a).map Prod.fst).Sublist (l.map Prod.fst) := by
  induction l with
  | nil => simp [sweepRecords]
  | cons p rest ih =>
    by_cases hp : p.2.lastActivity + a < now
    · simp only [sweepRecords, if_pos hp, List.map_cons]
      exact ih.cons _
    · simp only [sweepRecords, if_neg hp, List.map_cons]
      exact ih.cons₂ _

theorem lookupKey_sweepRecords_kept {l : List (String × Upload)} {now a : Nat} {k : String}
    {u : Upload} (h : lookupKey l k = some u) (hk : now ≤ u.lastActivity + a) :
    lookupKey (sweepRecords l now a) k = some u := by
  induction l with
  | nil => simp [lookupKey] at h
  | cons p rest ih =>
    obtain ⟨pk, pu⟩ := p
    simp only [lookupKey, sweepRecords] at h ⊢
    by_cases hp : pk = k
    · rw [if_pos hp] at h
      injection h with h
      subst h
      have hkeep : ¬pu.lastActivity + a < now := by omega
      rw [if_neg hkeep]
      simp [lookupKey, hp]
    · rw [if_neg hp] at h
      by_cases hq : pu.lastActivity + a < now
      · rw [if_pos hq]
        exact ih h
      · rw [if_neg hq]
        simp only [lookupKey, if_neg hp]
        exact ih h

theorem lookupKey_sweepRecords_dropped {l : List (String × Upload)} {now a : Nat} {k : String}
    {u : Upload} (hnd : (l.map Prod.fst).Nodup) (h : lookupKey l k = some u)
    (hk : u.lastActivity + a < now) :
    lookupKey (sweepRecords l now a) k = none := by
  induction l with
  | nil => simp [lookupKey] at h
  | cons p rest ih =>
    obtain ⟨pk, pu⟩ := p
    simp only [List.map_cons, List.nodup_cons] at hnd
    simp only [lookupKey, sweepRecords] at h ⊢
    by_cases hp : pk = k
    · rw [if_pos hp] at h
      injection h with h
      subst h
      rw [if_pos hk]
      apply lookupKey_eq_none_of_not_mem
      intro hmem
      exact hnd.1 (hp ▸ ((keys_sweepRecords_sublist rest now a).subset hmem))
    · rw [if_neg hp] at h
      by_cases hq : pu.lastActivity + a < now
      · rw [if_pos hq]
        exact ih hnd.2 h
      · rw [if_neg hq]
        simp only [lookupKey, if_neg hp]
        exact ih hnd.2 h

/-! Inversion lemmas for the engine operations. -/

theorem newUpload_ok_inv {s : Store} {info : FileInfo} {s1 : Store}
    (h : newUpload s info = .ok s1) :
    info.ID ∉ s.usedIds ∧ ¬(info.SizeIsDeferred = false ∧ info.Size < 0) ∧
      s1 = { records := (info.ID, freshUpload info) :: s.records
             usedIds := info.ID :: s.usedIds } := by
  unfold newUpload at h
  by_cases h1 : info.ID ∈ s.usedIds
  · rw [if_pos h1] at h
    exact Except.noConfusion h
  · rw [if_neg h1] at h
    by_cases h2 : info.SizeIsDeferred = false ∧ info.Size < 0
    · rw [if_pos h2] at h
      exact Except.noConfusion h
    · rw [if_neg h2] at h
      injection h with h
      exact ⟨h1, h2, h.symm⟩

theorem writeChunk_ok_inv {s : Store} {id : String} {off : Int} {data : List Nat}
    {ex : Option Nat} {now : Nat} {s1 : Store} {n : Int} {ev : Option CompletionEvent}
    (h : writeChunk s id off data ex now = .ok (s1, n, ev)) :
    ∃ u, lookupKey s.records id = some u ∧
      off = u.info.Offset ∧
      ¬(u.info.IsFinal = true ∧ u.info.PartialIDs ≠ []) ∧
      checksumBad ex data = false ∧
      ¬(u.info.SizeIsDeferred = false ∧ u.info.Size < u.info.Offset + (data.length : Int)) ∧
      n = (data.length : Int) ∧
      ev = writeEvent id u data ∧
      s1 = { s with records := upsertKey s.records id (writtenUpload u data now) } := by
  unfold writeChunk at h
  cases hl : lookupKey s.records id with
  | none =>
    rw [hl] at h
    exact Except.noConfusion h
  | some u =>
    rw [hl] at h
    simp only at h
    by_cases h1 : off ≠ u.info.Offset
    · rw [if_pos h1] at h
      exact Except.noConfusion h
    · rw [if_neg h1] at h
      by_cases h2 : u.info.IsFinal = true ∧ u.info.PartialIDs ≠ []
      · rw [if_pos h2] at h
        exact Except.noConfusion h
      · rw [if_neg h2] at h
        by_cases h3 : checksumBad ex data = true
        · rw [if_pos h3] at h
          exact Except.noConfusion h
        · rw [if_neg h3] at h
          by_cases h4 : u.info.SizeIsDeferred = false
              ∧ u.info.Size < u.info.Offset + (data.length : Int)
          · rw [if_pos h4] at h
            exact Except.noConfusion h
          · rw [if_neg h4] at h
            injection h with h
            injection h with ha hb
            injection hb with hb hc
            push_neg at h1
            exact ⟨u, rfl, h1, h2, Bool.not_eq_true _ ▸ h3, h4, hb.symm, hc.symm, ha.symm⟩

theorem fixLength_ok_inv {s : Store} {id : String} {z : Int} {s1 : Store}
    {ev : Option CompletionEvent} (h : fixLength s id z = .ok (s1, ev)) :
    ∃ u, lookupKey s.records id = some u ∧
      u.info.SizeIsDeferred = true ∧
      u.info.Offset ≤ z ∧
      ev = fixEvent id u z ∧
      s1 = { s with records := upsertKey s.records id (fixedUpload u z) } := by
  unfold fixLength at h
  cases hl : lookupKey s.records id with
  | none =>
    rw [hl] at h
    exact Except.noConfusion h
  | some u =>
    rw [hl] at h
    simp only at h
    by_cases h1 : u.info.SizeIsDeferred = false
    · rw [if_pos h1] at h
      exact Except.noConfusion h
    · rw [if_neg h1] at h
      by_cases h2 : z < u.info.Offset
      · rw [if_pos h2] at h
        exact Except.noConfusion h
      · rw [if_neg h2] at h
        injection h with h
        injection h with ha hb
        exact ⟨u, rfl, Bool.not_eq_false _ ▸ h1, le_of_not_lt h2, hb.symm, ha.symm⟩

theorem terminate_ok_inv {s : Store} {id : String} {s1 : Store}
    (h : terminate s id = .ok s1) :
    (∃ u, lookupKey s.records id = some u) ∧
      s1 = { s with records := removeKey s.records id } := by
  unfold terminate at h
  cases hl : lookupKey s.records id with
  | none =>
    rw [hl] at h
    exact Except.noConfusion h
  | some u =>
    rw [hl] at h
    simp only at h
    injection h with h
    exact ⟨⟨u, rfl⟩, h.symm⟩

theorem collectPartials_ok_lookup {s : Store} {ids : List String} {us : List Upload}
    (h : collectPartials s ids = .ok us) :
    ∀ pid ∈ ids, ∃ u, lookupKey s.records pid = some u := by
  induction ids generalizing us with
  | nil => simp
  | cons pid rest ih =>
    intro q hq
    unfold collectPartials at h
    cases hl : lookupKey s.records pid with
    | none =>
      rw [hl] at h
      exact Except.noConfusion h
    | some u =>
      rw [hl] at h
      simp only at h
      by_cases h1 : u.info.IsFinal = true ∨ u.info.IsPartial = false
      · rw [if_pos h1] at h
        exact Except.noConfusion h
      · rw [if_neg h1] at h
        by_cases h2 : u.info.SizeIsDeferred = true ∨ u.info.Offset ≠ u.info.Size
        · rw [if_pos h2] at h
          exact Except.noConfusion h
        · rw [if_neg h2] at h
          cases hc : collectPartials s rest with
          | error e =>
            rw [hc] at h
            exact Except.noConfusion h
          | ok us2 =>
            rcases List.mem_cons.mp hq with hq1 | hq2
            · exact ⟨u, hq1 ▸ hl⟩
            · exact ih hc q hq2

theorem collectPartials_ok_mem {s : Store} {ids : List String} {us : List Upload}
    (h : collectPartials s ids = .ok us) :
    ∀ u ∈ us, ∃ pid, lookupKey s.records pid = some u ∧
      u.info.SizeIsDeferred = false ∧ u.info.Offset = u.info.Size := by
  induction ids generalizing us with
  | nil =>
    unfold collectPartials at h
    injection h with h
    rw [← h]
    simp
  | cons pid rest ih =>
    unfold collectPartials at h
    cases hl : lookupKey s.records pid with
    | none =>
      rw [hl] at h
      exact Except.noConfusion h
    | some u =>
      rw [hl] at h
      simp only at h
      by_cases h1 : u.info.IsFinal = true ∨ u.info.IsPartial = false
      · rw [if_pos h1] at h
        exact Except.noConfusion h
      · rw [if_neg h1] at h
        by_cases h2 : u.info.SizeIsDeferred = true ∨ u.info.Offset ≠ u.info.Size
        · rw [if_pos h2] at h
          exact Except.noConfusion h
        · rw [if_neg h2] at h
          cases hc : collectPartials s rest with
          | error e =>
            rw [hc] at h
            exact Except.noConfusion h
          | ok us2 =>
            rw [hc] at h
            injection h with h
            push_neg at h2
            intro v hv
            rw [← h] at hv
            rcases List.mem_cons.mp hv with hv1 | hv2
            · exact ⟨pid, hv1 ▸ hl, hv1 ▸ Bool.not_eq_true _ ▸ h2.1, hv1 ▸ h2.2⟩
            · exact ih hc v hv2

theorem concatUploads_ok_inv {s : Store} {tid : String} {ids : List String} {s1 : Store}
    {ev : Option CompletionEvent} (h : concatUploads s tid ids = .ok (s1, ev)) :
    ∃ t us, lookupKey s.records tid = some t ∧
      t.info.Offset = 0 ∧
      collectPartials s ids = .ok us ∧
      ev = concatEvent tid t ids us ∧
      s1 = { s with records := upsertKey s.records tid (concatTarget t ids us) } := by
  unfold concatUploads at h
  cases hl : lookupKey s.records tid with
  | none =>
    rw [hl] at h
    exact Except.noConfusion h
  | some t =>
    rw [hl] at h
    simp only at h
    by_cases h1 : t.info.Offset ≠ 0
    · rw [if_pos h1] at h
      exact Except.noConfusion h
    · rw [if_neg h1] at h
      cases hc : collectPartials s ids with
      | error e =>
        rw [hc] at h
        exact Except.noConfusion h
      | ok us =>
        rw [hc] at h
        injection h with h
        injection h with ha hb
        push_neg at h1
        exact ⟨t, us, rfl, h1, rfl, hb.symm, ha.symm⟩

/-! Preservation of well-formedness. -/

theorem RecordOK_freshUpload (info : FileInfo)
    (h : ¬(info.SizeIsDeferred = false ∧ info.Size < 0)) :
    RecordOK (freshUpload info) := by
  constructor
  · simp [freshUpload]
  · intro hdef
    simp only [freshUpload] at hdef ⊢
    by_contra hlt
    push_neg at hlt
    exact h ⟨hdef, by omega⟩

theorem RecordOK_writtenUpload {u : Upload} {data : List Nat} {now : Nat}
    (hu : RecordOK u)
    (hsz : ¬(u.info.SizeIsDeferred = false ∧ u.info.Size < u.info.Offset + (data.length : Int))) :
    RecordOK (writtenUpload u data now) := by
  have hlen : (0 : Int) ≤ (data.length : Int) := by omega
  constructor
  · simp only [writtenUpload]
    have := hu.1
    omega
  · intro hdef
    simp only [writtenUpload] at hdef ⊢
    by_contra hlt
    push_neg at hlt
    exact hsz ⟨hdef, by omega⟩

theorem RecordOK_fixedUpload {u : Upload} {z : Int} (hu : RecordOK u)
    (hz : u.info.Offset ≤ z) : RecordOK (fixedUpload u z) := by
  constructor
  · simpa [fixedUpload] using hu.1
  · intro _
    simpa [fixedUpload] using hz

theorem collectPartials_sum_nonneg {s : Store} {ids : List String} {us : List Upload}
    (hs : OffsetsOK s) (h : collectPartials s ids = .ok us) :
    0 ≤ (us.map (fun u => u.info.Size)).sum := by
  apply List.sum_nonneg
  intro x hx
  rcases List.mem_map.mp hx with ⟨u, hu, rfl⟩
  rcases collectPartials_ok_mem h u hu with ⟨pid, hl, _, hoffsz⟩
  have hok := hs _ (mem_of_lookupKey_eq_some hl)
  have h0 : 0 ≤ u.info.Offset := hok.1
  omega

theorem RecordOK_concatTarget {t : Upload} {ids : List String} {us : List Upload}
    (hsum : 0 ≤ (us.map (fun u => u.info.Size)).sum) :
    RecordOK (concatTarget t ids us) := by
  constructor
  · simpa [concatTarget, concatInfo] using hsum
  · intro _
    simp [concatTarget, concatInfo]

theorem StoreWF_newUpload_ok {s : Store} {info : FileInfo} {s1 : Store}
    (hs : StoreWF s) (h : newUpload s info = .ok s1) : StoreWF s1 := by
  obtain ⟨hused, hsz, rfl⟩ := newUpload_ok_inv h
  obtain ⟨h1, h2, h3⟩ := hs
  refine ⟨?_, ?_, ?_⟩
  · intro p hp
    rcases List.mem_cons.mp hp with hp1 | hp2
    · rw [hp1]
      exact RecordOK_freshUpload info hsz
    · exact h1 p hp2
  · intro p hp
    rcases List.mem_cons.mp hp with hp1 | hp2
    · rw [hp1]
      exact List.mem_cons_self _ _
    · exact List.mem_cons_of_mem _ (h2 p hp2)
  · unfold KeysOK
    simp only [List.map_cons]
    refine List.nodup_cons.mpr ⟨?_, h3⟩
    intro hmem
    rcases List.mem_map.mp hmem with ⟨p, hp, hpid⟩
    rw [← hpid] at hused
    exact hused (h2 p hp)

theorem StoreWF_upsert_existing {s : Store} {id : String} {u u2 : Upload}
    (hs : StoreWF s) (hl : lookupKey s.records id = some u) (hok : RecordOK u2) :
    StoreWF { s with records := upsertKey s.records id u2 } := by
  obtain ⟨h1, h2, h3⟩ := hs
  refine ⟨?_, ?_, ?_⟩
  · intro p hp
    rcases mem_upsertKey hp with hp1 | hp2
    · exact h1 p hp1
    · rw [hp2]
      exact hok
  · intro p hp
    rcases mem_upsertKey hp with hp1 | hp2
    · exact h2 p hp1
    · rw [hp2]
      exact h2 (id, u) (mem_of_lookupKey_eq_some hl)
  · unfold KeysOK
    rw [keys_upsertKey_present u2 hl]
    exact h3

theorem StoreWF_writeChunk_ok {s : Store} {id : String} {off : Int} {data : List Nat}
    {ex : Option Nat} {now : Nat} {s1 : Store} {n : Int} {ev : Option CompletionEvent}
    (hs : StoreWF s) (h : writeChunk s id off data ex now = .ok (s1, n, ev)) : StoreWF s1 := by
  obtain ⟨u, hl, _, _, _, hsz, _, _, rfl⟩ := writeChunk_ok_inv h
  exact StoreWF_upsert_existing hs hl
    (RecordOK_writtenUpload (hs.1 _ (mem_of_lookupKey_eq_some hl)) hsz)

theorem StoreWF_fixLength_ok {s : Store} {id : String} {z : Int} {s1 : Store}
    {ev : Option CompletionEvent} (hs : StoreWF s) (h : fixLength s id z = .ok (s1, ev)) :
    StoreWF s1 := by
  obtain ⟨u, hl, _, hz, _, rfl⟩ := fixLength_ok_inv h
  exact StoreWF_upsert_existing hs hl
    (RecordOK_fixedUpload (hs.1 _ (mem_of_lookupKey_eq_some hl)) hz)

theorem StoreWF_concatUploads_ok {s : Store} {tid : String} {ids : List String} {s1 : Store}
    {ev : Option CompletionEvent} (hs : StoreWF s) (h : concatUploads s tid ids = .ok (s1, ev)) :
    StoreWF s1 := by
  obtain ⟨t, us, hl, _, hc, _, rfl⟩ := concatUploads_ok_inv h
  exact StoreWF_upsert_existing hs hl
    (RecordOK_concatTarget (collectPartials_sum_nonneg hs.1 hc))

theorem StoreWF_terminate_ok {s : Store} {id : String} {s1 : Store}
    (hs : StoreWF s) (h : terminate s id = .ok s1) : StoreWF s1 := by
  obtain ⟨_, rfl⟩ := terminate_ok_inv h
  obtain ⟨h1, h2, h3⟩ := hs
  refine ⟨fun p hp => h1 p (mem_removeKey hp), fun p hp => h2 p (mem_removeKey hp), ?_⟩
  exact (keys_removeKey_sublist s.records id).nodup h3

theorem StoreWF_cleanup {s : Store} (hs : StoreWF s) (now maxAge : Nat) :
    StoreWF (cleanup s now maxAge) := by
  obtain ⟨h1, h2, h3⟩ := hs
  refine ⟨fun p hp => h1 p (mem_sweepRecords hp), fun p hp => h2 p (mem_sweepRecords hp), ?_⟩
  exact (keys_sweepRecords_sublist s.records now maxAge).nodup h3

theorem StoreWF_step {s : Store} (hs : StoreWF s) (op : Op) : StoreWF (step s op).1 := by
  cases op with
  | create info =>
    simp only [step]
    cases h : newUpload s info with
    | ok s1 => exact StoreWF_newUpload_ok hs h
    | error e => exact hs
  | write id off data ex now =>
    simp only [step]
    cases h : writeChunk s id off data ex now with
    | ok r =>
      obtain ⟨s1, n, ev⟩ := r
      exact StoreWF_writeChunk_ok hs h
    | error e => exact hs
  | setLength id z =>
    simp only [step]
    cases h : fixLength s id z with
    | ok r =>
      obtain ⟨s1, ev⟩ := r
      exact StoreWF_fixLength_ok hs h
    | error e => exact hs
  | concat tid ids =>
    simp only [step]
    cases h : concatUploads s tid ids with
    | ok r =>
      obtain ⟨s1, ev⟩ := r
      exact StoreWF_concatUploads_ok hs h
    | error e => exact hs
  | remove id =>
    simp only [step]
    cases h : terminate s id with
    | ok s1 => exact StoreWF_terminate_ok hs h
    | error e => exact hs
  | sweep now maxAge =>
    simp only [step]
    exact StoreWF_cleanup hs now maxAge

theorem run_cons (s : Store) (op : Op) (rest : List Op) :
    run s (op :: rest) =
      ((run (step s op).1 rest).1, (step s op).2.toList ++ (run (step s op).1 rest).2) := rfl

theorem StoreWF_run {s : Store} (hs : StoreWF s) (ops : List Op) : StoreWF (run s ops).1 := by
  induction ops generalizing s with
  | nil => exact hs
  | cons op rest ih =>
    rw [run_cons]
    exact ih (StoreWF_step hs op)

/-! Once terminated, an ID stays gone; offsets never decrease. -/

theorem usedIds_step_subset (s : Store) (op : Op) : s.usedIds ⊆ (step s op).1.usedIds := by
  cases op with
  | create info =>
    simp only [step]
    cases h : newUpload s info with
    | ok s1 =>
      obtain ⟨_, _, rfl⟩ := newUpload_ok_inv h
      exact fun x hx => List.mem_cons_of_mem _ hx
    | error e => exact fun x hx => hx
  | write id off data ex now =>
    simp only [step]
    cases h : writeChunk s id off data ex now with
    | ok r =>
      obtain ⟨s1, n, ev⟩ := r
      obtain ⟨u, _, _, _, _, _, _, _, rfl⟩ := writeChunk_ok_inv h
      exact fun x hx => hx
    | error e => exact fun x hx => hx
  | setLength id z =>
    simp only [step]
    cases h : fixLength s id z with
    | ok r =>
      obtain ⟨s1, ev⟩ := r
      obtain ⟨u, _, _, _, _, rfl⟩ := fixLength_ok_inv h
      exact fun x hx => hx
    | error e => exact fun x hx => hx
  | concat tid ids =>
    simp only [step]
    cases h : concatUploads s tid ids with
    | ok r =>
      obtain ⟨s1, ev⟩ := r
      obtain ⟨t, us, _, _, _, _, rfl⟩ := concatUploads_ok_inv h
      exact fun x hx => hx
    | error e => exact fun x hx => hx
  | remove id =>
    simp only [step]
    cases h : terminate s id with
    | ok s1 =>
      obtain ⟨_, rfl⟩ := terminate_ok_inv h
      exact fun x hx => hx
    | error e => exact fun x hx => hx
  | sweep now maxAge =>
    simp only [step, cleanup]
    exact fun x hx => hx

theorem step_absent {s : Store} {id : String} (op : Op)
    (hid : id ∈ s.usedIds) (h : lookupKey s.records id = none) :
    lookupKey (step s op).1.records id = none := by
  cases op with
  | create info =>
    simp only [step]
    cases hn : newUpload s info with
    | ok s1 =>
      obtain ⟨hused, _, rfl⟩ := newUpload_ok_inv hn
      have hne : ¬info.ID = id := fun he => hused (he ▸ hid)
      simp only [lookupKey, if_neg hne]
      exact h
    | error e => exact h
  | write wid off data ex now =>
    simp only [step]
    cases hw : writeChunk s wid off data ex now with
    | ok r =>
      obtain ⟨s1, n, ev⟩ := r
      obtain ⟨u, hl, _, _, _, _, _, _, rfl⟩ := writeChunk_ok_inv hw
      have hne : id ≠ wid := by
        intro he
        rw [he, hl] at h
        exact Option.noConfusion h
      rw [lookupKey_upsertKey_ne hne]
      exact h
    | error e => exact h
  | setLength fid z =>
    simp only [step]
    cases hf : fixLength s fid z with
    | ok r =>
      obtain ⟨s1, ev⟩ := r
      obtain ⟨u, hl, _, _, _, rfl⟩ := fixLength_ok_inv hf
      have hne : id ≠ fid := by
        intro he
        rw [he, hl] at h
        exact Option.noConfusion h
      rw [lookupKey_upsertKey_ne hne]
      exact h
    | error e => exact h
  | concat tid ids =>
    simp only [step]
    cases hc : concatUploads s tid ids with
    | ok r =>
      obtain ⟨s1, ev⟩ := r
      obtain ⟨t, us, hl, _, _, _, rfl⟩ := concatUploads_ok_inv hc
      have hne : id ≠ tid := by
        intro he
        rw [he, hl] at h
        exact Option.noConfusion h
      rw [lookupKey_upsertKey_ne hne]
      exact h
    | error e => exact h
  | remove rid =>
    simp only [step]
    cases ht : terminate s rid with
    | ok s1 =>
      obtain ⟨_, rfl⟩ := terminate_ok_inv ht
      by_cases he : id = rid
      · rw [he]
        exact lookupKey_removeKey_self s.records rid
      · rw [lookupKey_removeKey_ne he]
        exact h
    | error e => exact h
  | sweep now maxAge =>
    simp only [step, cleanup]
    apply lookupKey_eq_none_of_not_mem
    intro hmem
    exact not_mem_of_lookupKey_eq_none h
      ((keys_sweepRecords_sublist s.records now maxAge).subset hmem)

theorem run_absent {s : Store} {id : String} (ops : List Op)
    (hid : id ∈ s.usedIds) (h : lookupKey s.records id = none) :
    lookupKey (run s ops).1.records id = none ∧ id ∈ (run s ops).1.usedIds := by
  induction ops generalizing s with
  | nil => exact ⟨h, hid⟩
  | cons op rest ih =>
    rw [run_cons]
    exact ih (usedIds_step_subset s op hid) (step_absent op hid h)

theorem step_mono {s : Store} {op : Op} {id : String} {u u' : Upload}
    (hs : StoreWF s) (hu : lookupKey s.records id = some u)
    (hu' : lookupKey (step s op).1.records id = some u') :
    u.info.Offset ≤ u'.info.Offset := by
  cases op with
  | create info =>
    simp only [step] at hu'
    cases hn : newUpload s info with
    | ok s1 =>
      rw [hn] at hu'
      obtain ⟨hused, _, h1⟩ := newUpload_ok_inv hn
      subst h1
      have hmem := hs.2.1 (id, u) (mem_of_lookupKey_eq_some hu)
      have hne : ¬info.ID = id := fun he => hused (he ▸ hmem)
      simp only [lookupKey, if_neg hne] at hu'
      rw [hu] at hu'
      injection hu' with hu'
      rw [hu']
    | error e =>
      rw [hn] at hu'
      simp only at hu'
      rw [hu] at hu'
      injection hu' with hu'
      rw [hu']
  | write wid off data ex now =>
    simp only [step] at hu'
    cases hw : writeChunk s wid off data ex now with
    | ok r =>
      obtain ⟨s1, n, ev⟩ := r
      rw [hw] at hu'
      obtain ⟨u0, hl, _, _, _, _, _, _, h1⟩ := writeChunk_ok_inv hw
      subst h1
      simp only at hu'
      by_cases he : wid = id
      · subst he
        rw [hu] at hl
        injection hl with hl
        rw [lookupKey_upsertKey_self] at hu'
        injection hu' with hu'
        rw [← hu', ← hl]
        simp only [writtenUpload]
        omega
      · rw [lookupKey_upsertKey_ne (fun hh => he hh.symm)] at hu'
        rw [hu] at hu'
        injection hu' with hu'
        rw [hu']
    | error e =>
      rw [hw] at hu'
      simp only at hu'
      rw [hu] at hu'
      injection hu' with hu'
      rw [hu']
  | setLength fid z =>
    simp only [step] at hu'
    cases hf : fixLength s fid z with
    | ok r =>
      obtain ⟨s1, ev⟩ := r
      rw [hf] at hu'
      obtain ⟨u0, hl, _, _, _, h1⟩ := fixLength_ok_inv hf
      subst h1
      simp only at hu'
      by_cases he : fid = id
      · subst he
        rw [hu] at hl
        injection hl with hl
        rw [lookupKey_upsertKey_self] at hu'
        injection hu' with hu'
        rw [← hu', ← hl]
        simp [fixedUpload]
      · rw [lookupKey_upsertKey_ne (fun hh => he hh.symm)] at hu'
        rw [hu] at hu'
        injection hu' with hu'
        rw [hu']
    | error e =>
      rw [hf] at hu'
      simp only at hu'
      rw [hu] at hu'
      injection hu' with hu'
      rw [hu']
  | concat tid ids =>
    simp only [step] at hu'
    cases hc : concatUploads s tid ids with
    | ok r =>
      obtain ⟨s1, ev⟩ := r
      rw [hc] at hu'
      obtain ⟨t, us, hl, hoff0, hcp, _, h1⟩ := concatUploads_ok_inv hc
      subst h1
      simp only at hu'
      by_cases he : tid = id
      · subst he
        rw [hu] at hl
        injection hl with hl
        rw [lookupKey_upsertKey_self] at hu'
        injection hu' with hu'
        have hsum := collectPartials_sum_nonneg hs.1 hcp
        rw [← hu']
        simp only [concatTarget, concatInfo]
        rw [← hl] at hoff0
        rw [hoff0]
        exact hsum
      · rw [lookupKey_upsertKey_ne (fun hh => he hh.symm)] at hu'
        rw [hu] at hu'
        injection hu' with hu'
        rw [hu']
    | error e =>
      rw [hc] at hu'
      simp only at hu'
      rw [hu] at hu'
      injection hu' with hu'
      rw [hu']
  | remove rid =>
    simp only [step] at hu'
    cases ht : terminate s rid with
    | ok s1 =>
      rw [ht] at hu'
      obtain ⟨_, h1⟩ := terminate_ok_inv ht
      subst h1
      simp only at hu'
      by_cases he : id = rid
      · rw [he, lookupKey_removeKey_self] at hu'
        exact Option.noConfusion hu'
      · rw [lookupKey_removeKey_ne he] at hu'
        rw [hu] at hu'
        injection hu' with hu'
        rw [hu']
    | error e =>
      rw [ht] at hu'
      simp only at hu'
      rw [hu] at hu'
      injection hu' with hu'
      rw [hu']
  | sweep now maxAge =>
    simp only [step, cleanup] at hu'
    have hmem := mem_sweepRecords (mem_of_lookupKey_eq_some hu')
    have := lookupKey_of_mem_nodup hs.2.2 hmem
    rw [hu] at this
    injection this with this
    rw [this]

theorem run_mono {s : Store} {id : String} {u u' : Upload} (ops : List Op)
    (hs : StoreWF s) (hu : lookupKey s.records id = some u)
    (hu' : lookupKey (run s ops).1.records id = some u') :
    u.info.Offset ≤ u'.info.Offset := by
  induction ops generalizing s u with
  | nil =>
    simp only [run] at hu'
    rw [hu] at hu'
    injection hu' with hu'
    rw [hu']
  | cons op rest ih =>
    rw [run_cons] at hu'
    cases h1 : lookupKey (step s op).1.records id with
    | none =>
      have hmem := hs.2.1 (id, u) (mem_of_lookupKey_eq_some hu)
      have habs := (run_absent rest (usedIds_step_subset s op hmem) h1).1
      rw [habs] at hu'
      exact Option.noConfusion hu'
    | some u1 =>
      exact le_trans (step_mono hs hu h1) (ih (StoreWF_step hs op) h1 hu')

/-! Completion events fire at most once per upload. -/

theorem countFor_append (id : String) (l1 l2 : List CompletionEvent) :
    countFor id (l1 ++ l2) = countFor id l1 + countFor id l2 := by
  simp [countFor, List.filter_append]

theorem countFor_nil (id : String) : countFor id [] = 0 := rfl

theorem countFor_single_eq {id : String} {ev : CompletionEvent} (h : ev.uploadID = id) :
    countFor id [ev] = 1 := by
  simp [countFor, List.filter, h]

theorem countFor_single_ne {id : String} {ev : CompletionEvent} (h : ¬ev.uploadID = id) :
    countFor id [ev] = 0 := by
  have hb : (ev.uploadID == id) = false := beq_eq_false_iff_ne.mpr h
  simp [countFor, List.filter, hb]

theorem writeEvent_some_inv {id : String} {u : Upload} {data : List Nat} {ev : CompletionEvent}
    (h : writeEvent id u data = some ev) :
    u.info.SizeIsDeferred = false ∧ u.info.Offset + (data.length : Int) = u.info.Size ∧
      u.completeFired = false ∧ ev.uploadID = id := by
  unfold writeEvent at h
  by_cases hc : u.info.SizeIsDeferred = false
      ∧ u.info.Offset + (data.length : Int) = u.info.Size ∧ u.completeFired = false
  · rw [if_pos hc] at h
    injection h with h
    refine ⟨hc.1, hc.2.1, hc.2.2, ?_⟩
    rw [← h]
    rfl
  · rw [if_neg hc] at h
    exact Option.noConfusion h

theorem fixEvent_some_inv {id : String} {u : Upload} {z : Int} {ev : CompletionEvent}
    (h : fixEvent id u z = some ev) :
    u.info.Offset = z ∧ u.completeFired = false ∧ ev.uploadID = id := by
  unfold fixEvent at h
  by_cases hc : u.info.Offset = z ∧ u.completeFired = false
  · rw [if_pos hc] at h
    injection h with h
    refine ⟨hc.1, hc.2, ?_⟩
    rw [← h]
    rfl
  · rw [if_neg hc] at h
    exact Option.noConfusion h

theorem concatEvent_some_inv {tid : String} {t : Upload} {ids : List String} {us : List Upload}
    {ev : CompletionEvent} (h : concatEvent tid t ids us = some ev) :
    t.completeFired = false ∧ ev.uploadID = tid := by
  unfold concatEvent at h
  by_cases hc : t.completeFired = false
  · rw [if_pos hc] at h
    injection h with h
    refine ⟨hc, ?_⟩
    rw [← h]
    rfl
  · rw [if_neg hc] at h
    exact Option.noConfusion h

theorem writtenUpload_flag_latch {u : Upload} {data : List Nat} {now : Nat}
    (h : u.completeFired = true) : (writtenUpload u data now).completeFired = true := by
  unfold writtenUpload
  split
  · rfl
  · exact h

theorem fixedUpload_flag_latch {u : Upload} {z : Int}
    (h : u.completeFired = true) : (fixedUpload u z).completeFired = true := by
  unfold fixedUpload
  split
  · rfl
  · exact h

theorem step_fire_inv {s : Store} {op : Op} {ev : CompletionEvent}
    (h : (step s op).2 = some ev) :
    ∃ u, lookupKey s.records ev.uploadID = some u ∧ u.completeFired = false ∧
      ∃ u', lookupKey (step s op).1.records ev.uploadID = some u' ∧
        u'.completeFired = true := by
  cases op with
  | create info =>
    simp only [step] at h
    cases hn : newUpload s info with
    | ok s1 =>
      rw [hn] at h
      exact Option.noConfusion h
    | error e =>
      rw [hn] at h
      exact Option.noConfusion h
  | write wid off data ex now =>
    cases hw : writeChunk s wid off data ex now with
    | ok r =>
      obtain ⟨s1, n, evo⟩ := r
      have hst2 : step s (Op.write wid off data ex now) = (s1, evo) := by
        simp only [step, hw]
      rw [hst2] at h ⊢
      simp only at h ⊢
      obtain ⟨u, hl, _, _, _, _, _, hev, hst⟩ := writeChunk_ok_inv hw
      rw [hev] at h
      obtain ⟨hdef, hsum, hflag, hid⟩ := writeEvent_some_inv h
      subst hst
      rw [hid]
      refine ⟨u, hl, hflag, writtenUpload u data now, lookupKey_upsertKey_self _ _ _, ?_⟩
      unfold writtenUpload
      rw [if_pos ⟨hdef, hsum⟩]
    | error e =>
      have hst2 : step s (Op.write wid off data ex now) = (s, none) := by
        simp only [step, hw]
      rw [hst2] at h
      exact Option.noConfusion h
  | setLength fid z =>
    cases hf : fixLength s fid z with
    | ok r =>
      obtain ⟨s1, evo⟩ := r
      have hst2 : step s (Op.setLength fid z) = (s1, evo) := by
        simp only [step, hf]
      rw [hst2] at h ⊢
      simp only at h ⊢
      obtain ⟨u, hl, _, _, hev, hst⟩ := fixLength_ok_inv hf
      rw [hev] at h
      obtain ⟨hoff, hflag, hid⟩ := fixEvent_some_inv h
      subst hst
      rw [hid]
      refine ⟨u, hl, hflag, fixedUpload u z, lookupKey_upsertKey_self _ _ _, ?_⟩
      unfold fixedUpload
      simp only
      rw [if_pos hoff]
    | error e =>
      have hst2 : step s (Op.setLength fid z) = (s, none) := by
        simp only [step, hf]
      rw [hst2] at h
      exact Option.noConfusion h
  | concat tid ids =>
    cases hc : concatUploads s tid ids with
    | ok r =>
      obtain ⟨s1, evo⟩ := r
      have hst2 : step s (Op.concat tid ids) = (s1, evo) := by
        simp only [step, hc]
      rw [hst2] at h ⊢
      simp only at h ⊢
      obtain ⟨t, us, hl, _, _, hev, hst⟩ := concatUploads_ok_inv hc
      rw [hev] at h
      obtain ⟨hflag, hid⟩ := concatEvent_some_inv h
      subst hst
      rw [hid]
      exact ⟨t, hl, hflag, concatTarget t ids us, lookupKey_upsertKey_self _ _ _, rfl⟩
    | error e =>
      have hst2 : step s (Op.concat tid ids) = (s, none) := by
        simp only [step, hc]
      rw [hst2] at h
      exact Option.noConfusion h
  | remove rid =>
    simp only [step] at h
    cases ht : terminate s rid with
    | ok s1 =>
      rw [ht] at h
      exact Option.noConfusion h
    | error e =>
      rw [ht] at h
      exact Option.noConfusion h
  | sweep now maxAge =>
    simp only [step] at h
    exact Option.noConfusion h

theorem step_flag_persist {s : Store} (op : Op) {id : String} {u : Upload}
    (hs : StoreWF s) (hu : lookupKey s.records id = some u) (hflag : u.completeFired = true) :
    lookupKey (step s op).1.records id = none ∨
      ∃ u', lookupKey (step s op).1.records id = some u' ∧ u'.completeFired = true := by
  cases op with
  | create info =>
    simp only [step]
    cases hn : newUpload s info with
    | ok s1 =>
      obtain ⟨hused, _, h1⟩ := newUpload_ok_inv hn
      subst h1
      have hmem := hs.2.1 (id, u) (mem_of_lookupKey_eq_some hu)
      have hne : ¬info.ID = id := fun he => hused (he ▸ hmem)
      right
      refine ⟨u, ?_, hflag⟩
      simp only [lookupKey, if_neg hne]
      exact hu
    | error e => exact Or.inr ⟨u, hu, hflag⟩
  | write wid off data ex now =>
    simp only [step]
    cases hw : writeChunk s wid off data ex now with
    | ok r =>
      obtain ⟨s1, n, evo⟩ := r
      obtain ⟨u0, hl, _, _, _, _, _, _, h1⟩ := writeChunk_ok_inv hw
      subst h1
      by_cases he : wid = id
      · subst he
        rw [hu] at hl
        injection hl with hl
        right
        refine ⟨writtenUpload u0 data now, lookupKey_upsertKey_self _ _ _, ?_⟩
        rw [hl] at hflag
        exact writtenUpload_flag_latch hflag
      · right
        refine ⟨u, ?_, hflag⟩
        rw [lookupKey_upsertKey_ne (fun hh => he hh.symm)]
        exact hu
    | error e => exact Or.inr ⟨u, hu, hflag⟩
  | setLength fid z =>
    simp only [step]
    cases hf : fixLength s fid z with
    | ok r =>
      obtain ⟨s1, evo⟩ := r
      obtain ⟨u0, hl, _, _, _, h1⟩ := fixLength_ok_inv hf
      subst h1
      by_cases he : fid = id
      · subst he
        rw [hu] at hl
        injection hl with hl
        right
        refine ⟨fixedUpload u0 z, lookupKey_upsertKey_self _ _ _, ?_⟩
        rw [hl] at hflag
        exact fixedUpload_flag_latch hflag
      · right
        refine ⟨u, ?_, hflag⟩
        rw [lookupKey_upsertKey_ne (fun hh => he hh.symm)]
        exact hu
    | error e => exact Or.inr ⟨u, hu, hflag⟩
  | concat tid ids =>
    simp only [step]
    cases hc : concatUploads s tid ids with
    | ok r =>
      obtain ⟨s1, evo⟩ := r
      obtain ⟨t, us, hl, _, _, _, h1⟩ := concatUploads_ok_inv hc
      subst h1
      by_cases he : tid = id
      · subst he
        right
        exact ⟨concatTarget t ids us, lookupKey_upsertKey_self _ _ _, rfl⟩
      · right
        refine ⟨u, ?_, hflag⟩
        rw [lookupKey_upsertKey_ne (fun hh => he hh.symm)]
        exact hu
    | error e => exact Or.inr ⟨u, hu, hflag⟩
  | remove rid =>
    simp only [step]
    cases ht : terminate s rid with
    | ok s1 =>
      obtain ⟨_, h1⟩ := terminate_ok_inv ht
      subst h1
      by_cases he : id = rid
      · left
        rw [he]
        exact lookupKey_removeKey_self s.records rid
      · right
        refine ⟨u, ?_, hflag⟩
        rw [lookupKey_removeKey_ne he]
        exact hu
    | error e => exact Or.inr ⟨u, hu, hflag⟩
  | sweep now maxAge =>
    simp only [step, cleanup]
    cases hres : lookupKey (sweepRecords s.records now maxAge) id with
    | none => exact Or.inl rfl
    | some u1 =>
      right
      have hmem := mem_sweepRecords (mem_of_lookupKey_eq_some hres)
      have heq := lookupKey_of_mem_nodup hs.2.2 hmem
      rw [hu] at heq
      injection heq with heq
      refine ⟨u1, rfl, ?_⟩
      rw [← heq]
      exact hflag

theorem run_count_zero {s : Store} {id : String} (ops : List Op) (hs : StoreWF s)
    (h : (lookupKey s.records id = none ∧ id ∈ s.usedIds) ∨
         (∃ u, lookupKey s.records id = some u ∧ u.completeFired = true)) :
    countFor id (run s ops).2 = 0 := by
  induction ops generalizing s with
  | nil => rfl
  | cons op rest ih =>
    rw [run_cons]
    simp only
    rw [countFor_append]
    have hstep : countFor id (step s op).2.toList = 0 := by
      cases hse : (step s op).2 with
      | none => rfl
      | some ev =>
        by_cases hevid : ev.uploadID = id
        · exfalso
          obtain ⟨u0, hl0, hf0, _⟩ := step_fire_inv hse
          rw [hevid] at hl0
          rcases h with ⟨hnone, _⟩ | ⟨u, hl, hflag⟩
          · rw [hnone] at hl0
            exact Option.noConfusion hl0
          · rw [hl] at hl0
            injection hl0 with hl0
            rw [hl0] at hflag
            rw [hflag] at hf0
            exact Bool.noConfusion hf0
        · simp only [Option.toList]
          exact countFor_single_ne hevid
    rw [hstep, Nat.zero_add]
    apply ih (StoreWF_step hs op)
    rcases h with ⟨hnone, hused⟩ | ⟨u, hl, hflag⟩
    · exact Or.inl ⟨step_absent op hused hnone, usedIds_step_subset s op hused⟩
    · rcases step_flag_persist op hs hl hflag with h1 | h1
      · exact Or.inl ⟨h1,
          usedIds_step_subset s op (hs.2.1 (id, u) (mem_of_lookupKey_eq_some hl))⟩
      · exact Or.inr h1

theorem run_count_le_one {s : Store} (id : String) (ops : List Op) (hs : StoreWF s) :
    countFor id (run s ops).2 ≤ 1 := by
  induction ops generalizing s with
  | nil => exact Nat.zero_le 1
  | cons op rest ih =>
    rw [run_cons]
    simp only
    rw [countFor_append]
    cases hse : (step s op).2 with
    | none =>
      simp only [Option.toList, countFor_nil, Nat.zero_add]
      exact ih (StoreWF_step hs op)
    | some ev =>
      simp only [Option.toList]
      by_cases hevid : ev.uploadID = id
      · obtain ⟨u0, hl0, hf0, u1, hl1, hf1⟩ := step_fire_inv hse
        have hz : countFor id (run (step s op).1 rest).2 = 0 := by
          apply run_count_zero rest (StoreWF_step hs op)
          right
          rw [hevid] at hl1
          exact ⟨u1, hl1, hf1⟩
        rw [hz, countFor_single_eq hevid]
      · rw [countFor_single_ne hevid, Nat.zero_add]
        exact ih (StoreWF_step hs op)

/-! Claim theorems. -/

/-- C1: for every upload record and every call `write_chunk(id, offset, data)`
in which `offset` differs from the record's current offset, the call fails
with `OffsetMismatch`, and neither the stored bytes nor any field of the
record changes — the engine state is untouched and no event fires. -/
theorem C1_offset_mismatch_rejected (s : Store) (id : String) (off : Int)
    (data : List Nat) (ex : Option Nat) (now : Nat) (u : Upload)
    (hu : lookupKey s.records id = some u) (hoff : off ≠ u.info.Offset) :
    writeChunk s id off data ex now = .error .OffsetMismatch ∧
      step s (Op.write id off data ex now) = (s, none) := by
  have hw : writeChunk s id off data ex now = .error .OffsetMismatch := by
    unfold writeChunk
    rw [hu]
    simp only
    rw [if_pos hoff]
  exact ⟨hw, by simp only [step, hw]⟩

/-- Witness for C1 at a concrete input: upload `a` is at offset 5, a write at
offset 3 is rejected with `OffsetMismatch` and the state is unchanged. -/
theorem C1_offset_mismatch_rejected_witness :
    writeChunk exStore "a" 3 [9] none 7 = .error .OffsetMismatch ∧
      step exStore (Op.write "a" 3 [9] none 7) = (exStore, none) :=
  C1_offset_mismatch_rejected exStore "a" 3 [9] none 7 upA rfl (by decide)

/-- C7 (amended): a chunk write carrying a mismatching expected checksum fails
with `ChecksumMismatch`, commits no bytes and leaves the record's offset (and
the whole state) unchanged, provided the record exists, is not a
concatenation-produced final upload, and the supplied offset matches the
record's current offset; offset validation precedes checksum verification. -/
theorem C7_checksum_mismatch_rejected (s : Store) (id : String) (data : List Nat)
    (c : Nat) (now : Nat) (u : Upload)
    (hu : lookupKey s.records id = some u)
    (hfin : ¬(u.info.IsFinal = true ∧ u.info.PartialIDs ≠ []))
    (hc : c ≠ checksumOf data) :
    writeChunk s id u.info.Offset data (some c) now = .error .ChecksumMismatch ∧
      step s (Op.write id u.info.Offset data (some c) now) = (s, none) := by
  have hw : writeChunk s id u.info.Offset data (some c) now = .error .ChecksumMismatch := by
    unfold writeChunk
    rw [hu]
    simp only
    rw [if_neg (fun hh : u.info.Offset ≠ u.info.Offset => hh rfl)]
    rw [if_neg hfin]
    have hcb : checksumBad (some c) data = true := by
      unfold checksumBad
      exact bne_iff_ne.mpr hc
    rw [if_pos hcb]
  exact ⟨hw, by simp only [step, hw]⟩

/-- Witness for C7 (amended) at a concrete input: upload `a` is at offset 5
with byte sum 15; a write at offset 5 declaring checksum 999 is rejected with
`ChecksumMismatch` and the state is unchanged. -/
theorem C7_checksum_mismatch_rejected_witness :
    writeChunk exStore "a" upA.info.Offset [9] (some 999) 7 = .error .ChecksumMismatch ∧
      step exStore (Op.write "a" upA.info.Offset [9] (some 999) 7) = (exStore, none) :=
  C7_checksum_mismatch_rejected exStore "a" [9] 999 7 upA rfl (by decide) (by decide)

/-- Counterexample to C7 as stated: a chunk write that carries a mismatching
expected checksum (999 against byte sum 9) but whose offset (3) also differs
from the record's current offset (5) fails with `OffsetMismatch`, not with
`ChecksumMismatch`. -/
theorem C7_checksum_mismatch_counterexample :
    checksumBad (some 999) [9] = true ∧
      lookupKey exStore.records "a" = some upA ∧
      (3 : Int) ≠ upA.info.Offset ∧
      writeChunk exStore "a" 3 [9] (some 999) 7 ≠ .error .ChecksumMismatch ∧
      writeChunk exStore "a" 3 [9] (some 999) 7 = .error .OffsetMismatch := by
  have heq : writeChunk exStore "a" 3 [9] (some 999) 7 = .error .OffsetMismatch := rfl
  refine ⟨by decide, rfl, by decide, ?_, heq⟩
  intro hcontra
  rw [heq] at hcontra
  injection hcontra with hc
  exact StorageError.noConfusion hc

/-- C8: the expiry sweep with threshold `maxAge` at time `now` terminates —
removes the record together with its stored bytes — every upload whose
last-activity time is older than `maxAge`, and leaves every upload written
within the age window untouched. -/
theorem C8_sweep_expiry (s : Store) (now maxAge : Nat) (id : String) (u : Upload)
    (hk : KeysOK s) (hu : lookupKey s.records id = some u) :
    (u.lastActivity + maxAge < now →
        lookupKey (cleanup s now maxAge).records id = none) ∧
      (now ≤ u.lastActivity + maxAge →
        lookupKey (cleanup s now maxAge).records id = some u) := by
  constructor
  · intro hexp
    exact lookupKey_sweepRecords_dropped hk hu hexp
  · intro hfresh
    exact lookupKey_sweepRecords_kept hu hfresh

/-- Witness for C8 at concrete inputs with `maxAge = 0`: upload `a` was last
written at time 3; a sweep at time 5 removes it, a sweep at time 3 keeps it
intact. -/
theorem C8_sweep_expiry_witness :
    lookupKey (cleanup exStore 5 0).records "a" = none ∧
      lookupKey (cleanup exStore 3 0).records "a" = some upA :=
  ⟨(C8_sweep_expiry exStore 5 0 "a" upA (by decide) rfl).1 (by decide),
   (C8_sweep_expiry exStore 3 0 "a" upA (by decide) rfl).2 (by decide)⟩

theorem lookupKey_foldl_upsert {L : List (String × String)} (m : List (String × String))
    (k : String) (hnd : (L.map Prod.fst).Nodup) :
    lookupKey (L.foldl (fun acc kv => upsertKey acc kv.1 kv.2) m) k =
      (match lookupKey L k with
       | some v => some v
       | none => lookupKey m k) := by
  induction L generalizing m with
  | nil => simp [lookupKey]
  | cons kv rest ih =>
    obtain ⟨k0, v0⟩ := kv
    simp only [List.map_cons, List.nodup_cons] at hnd
    simp only [List.foldl_cons]
    rw [ih (upsertKey m k0 v0) hnd.2]
    by_cases hk : k0 = k
    · subst hk
      have hrest : lookupKey rest k0 = none := lookupKey_eq_none_of_not_mem hnd.1
      rw [hrest]
      simp only [lookupKey, if_pos rfl]
      exact lookupKey_upsertKey_self m k0 v0
    · simp only [lookupKey, if_neg hk]
      cases hr : lookupKey rest k with
      | some v => rfl
      | none => exact lookupKey_upsertKey_ne (fun hh => hk hh.symm)

/-- C10: `MergeWith` returns a response whose status code is `resp2`'s when
nonzero and `resp`'s otherwise, whose body is `resp2`'s when non-empty and
`resp`'s otherwise, and whose headers map every key present in `resp2` to
`resp2`'s value and every other key of `resp` to `resp`'s value (in the pure
embedding, the inputs are values and are never mutated). -/
theorem C10_merge_with (resp resp2 : HTTPResponse) (k : String)
    (h1 : (resp.Headers.map Prod.fst).Nodup) (h2 : (resp2.Headers.map Prod.fst).Nodup) :
    (resp.MergeWith resp2).StatusCode =
        (if resp2.StatusCode ≠ 0 then resp2.StatusCode else resp.StatusCode) ∧
      (resp.MergeWith resp2).Body =
        (if 0 < resp2.Body.length then resp2.Body else resp.Body) ∧
      lookupKey (resp.MergeWith resp2).Headers k =
        (match lookupKey resp2.Headers k with
         | some v => some v
         | none => lookupKey resp.Headers k) := by
  refine ⟨rfl, rfl, ?_⟩
  unfold HTTPResponse.MergeWith
  simp only
  rw [lookupKey_foldl_upsert _ k h2]
  cases hr : lookupKey resp2.Headers k with
  | some v => rfl
  | none =>
    simp only
    rw [lookupKey_foldl_upsert _ k h1]
    cases hr1 : lookupKey resp.Headers k with
    | some v => rfl
    | none => rfl

/-- Witness for C10 at concrete inputs: merging a 200/"ok" response carrying
headers A,B with a 404 response carrying headers B,C; key B resolves to the
second response's value. -/
theorem C10_merge_with_witness :
    (respEx1.MergeWith respEx2).StatusCode =
        (if respEx2.StatusCode ≠ 0 then respEx2.StatusCode else respEx1.StatusCode) ∧
      (respEx1.MergeWith respEx2).Body =
        (if 0 < respEx2.Body.length then respEx2.Body else respEx1.Body) ∧
      lookupKey (respEx1.MergeWith respEx2).Headers "B" =
        (match lookupKey respEx2.Headers "B" with
         | some v => some v
         | none => lookupKey respEx1.Headers "B") :=
  C10_merge_with respEx1 respEx2 "B" (by decide) (by decide)

theorem collectPartials_of_good {s : Store} {ids : List String}
    (hgood : ∀ pid ∈ ids, goodInput s pid = true) :
    ∃ us, collectPartials s ids = .ok us ∧
      us.map (fun u => u.content) = ids.map (fun pid => contentOf s pid) ∧
      us.map (fun u => u.info.Size) = ids.map (fun pid => declaredSize s pid) := by
  induction ids with
  | nil => exact ⟨[], rfl, rfl, rfl⟩
  | cons pid rest ih =>
    have hg := hgood pid (List.mem_cons_self _ _)
    unfold goodInput at hg
    cases hl : lookupKey s.records pid with
    | none =>
      rw [hl] at hg
      exact Bool.noConfusion hg
    | some u =>
      rw [hl] at hg
      simp only [Bool.and_eq_true, Bool.not_eq_true', beq_iff_eq] at hg
      obtain ⟨⟨⟨hg1, hg2⟩, hg3⟩, hg4⟩ := hg
      obtain ⟨us, hc, hcont, hsz⟩ := ih (fun q hq => hgood q (List.mem_cons_of_mem _ hq))
      refine ⟨u :: us, ?_, ?_, ?_⟩
      · unfold collectPartials
        rw [hl]
        simp only
        rw [if_neg (by simp [hg1, hg2]), if_neg (by simp [hg3, hg4]), hc]
      · simp only [List.map_cons, hcont, contentOf, hl]
      · simp only [List.map_cons, hsz, declaredSize, hl]

theorem collectPartials_append_error {s : Store} {front rest : List String}
    {e : StorageError} (hgood : ∀ q ∈ front, goodInput s q = true)
    (h : collectPartials s rest = .error e) :
    collectPartials s (front ++ rest) = .error e := by
  induction front with
  | nil => simpa using h
  | cons q qs ih =>
    have hg := hgood q (List.mem_cons_self _ _)
    unfold goodInput at hg
    cases hl : lookupKey s.records q with
    | none =>
      rw [hl] at hg
      exact Bool.noConfusion hg
    | some u =>
      rw [hl] at hg
      simp only [Bool.and_eq_true, Bool.not_eq_true', beq_iff_eq] at hg
      obtain ⟨⟨⟨hg1, hg2⟩, hg3⟩, hg4⟩ := hg
      simp only [List.cons_append]
      unfold collectPartials
      rw [hl]
      simp only
      rw [if_neg (by simp [hg1, hg2]), if_neg (by simp [hg3, hg4])]
      rw [ih (fun r hr => hgood r (List.mem_cons_of_mem _ hr))]

theorem concatUploads_error_of_collect {s : Store} {tid : String} {ids : List String}
    {t : Upload} {e : StorageError} (hT : lookupKey s.records tid = some t)
    (hT0 : t.info.Offset = 0) (h : collectPartials s ids = .error e) :
    concatUploads s tid ids = .error e := by
  unfold concatUploads
  rw [hT]
  simp only
  rw [if_neg (fun hh : t.info.Offset ≠ 0 => hh hT0), h]

/-- C2: concatenating a list of partial uploads, all complete, into a fresh
target succeeds and makes the target's content exactly the byte-concatenation
of the partials' contents in listed order, with its size and offset set to the
sum of the partials' sizes, in the same atomic state change. -/
theorem C2_concat_success (s : Store) (tid : String) (ids : List String) (t : Upload)
    (hT : lookupKey s.records tid = some t) (hT0 : t.info.Offset = 0)
    (hgood : ∀ pid ∈ ids, goodInput s pid = true) :
    ∃ s1 ev, concatUploads s tid ids = .ok (s1, ev) ∧
      ∃ F, lookupKey s1.records tid = some F ∧
        F.content = (ids.map (fun pid => contentOf s pid)).flatten ∧
        F.info.Size = (ids.map (fun pid => declaredSize s pid)).sum ∧
        F.info.Offset = F.info.Size := by
  obtain ⟨us, hc, hcont, hsz⟩ := collectPartials_of_good hgood
  have hcc : concatUploads s tid ids =
      .ok ({ s with records := upsertKey s.records tid (concatTarget t ids us) },
           concatEvent tid t ids us) := by
    unfold concatUploads
    rw [hT]
    simp only
    rw [if_neg (fun hh : t.info.Offset ≠ 0 => hh hT0), hc]
  refine ⟨_, _, hcc, concatTarget t ids us, lookupKey_upsertKey_self _ _ _, ?_, ?_, rfl⟩
  · simp only [concatTarget]
    rw [hcont]
  · simp only [concatTarget, concatInfo]
    rw [hsz]

/-- Witness for C2 at a concrete input: concatenating complete partials `p1`
(bytes 10,20) and `p2` (byte 30) into the fresh target `f`. -/
theorem C2_concat_success_witness :
    ∃ s1 ev, concatUploads exStore "f" ["p1", "p2"] = .ok (s1, ev) ∧
      ∃ F, lookupKey s1.records "f" = some F ∧
        F.content = ((["p1", "p2"].map (fun pid => contentOf exStore pid)).flatten) ∧
        F.info.Size = ((["p1", "p2"].map (fun pid => declaredSize exStore pid)).sum) ∧
        F.info.Offset = F.info.Size :=
  C2_concat_success exStore "f" ["p1", "p2"] tUp rfl (by decide) (by decide)

/-- C3: if the first invalid input of a concatenation is missing, already
final, or incomplete, the whole operation fails with `PartialNotFound`,
`PartialAlreadyFinal`, or `PartialIncomplete` respectively, and nothing is
written to the target — the engine state is untouched. -/
theorem C3_concat_failure (s : Store) (tid : String) (t : Upload)
    (front back : List String) (pid : String)
    (hT : lookupKey s.records tid = some t) (hT0 : t.info.Offset = 0)
    (hgood : ∀ q ∈ front, goodInput s q = true) :
    (lookupKey s.records pid = none →
        concatUploads s tid (front ++ pid :: back) = .error .PartialNotFound) ∧
      (∀ u, lookupKey s.records pid = some u → u.info.IsFinal = true →
        concatUploads s tid (front ++ pid :: back) = .error .PartialAlreadyFinal) ∧
      (∀ u, lookupKey s.records pid = some u → u.info.IsFinal = false →
        u.info.IsPartial = true →
        u.info.SizeIsDeferred = true ∨ u.info.Offset ≠ u.info.Size →
        concatUploads s tid (front ++ pid :: back) = .error .PartialIncomplete) ∧
      (∀ e, concatUploads s tid (front ++ pid :: back) = .error e →
        step s (Op.concat tid (front ++ pid :: back)) = (s, none)) := by
  refine ⟨?_, ?_, ?_, ?_⟩
  · intro hnone
    apply concatUploads_error_of_collect hT hT0
    apply collectPartials_append_error hgood
    unfold collectPartials
    rw [hnone]
  · intro u hl hfin
    apply concatUploads_error_of_collect hT hT0
    apply collectPartials_append_error hgood
    unfold collectPartials
    rw [hl]
    simp only
    rw [if_pos (Or.inl hfin)]
  · intro u hl hfin hpart hinc
    apply concatUploads_error_of_collect hT hT0
    apply collectPartials_append_error hgood
    unfold collectPartials
    rw [hl]
    simp only
    rw [if_neg (by simp [hfin, hpart]), if_pos hinc]
  · intro e he
    simp only [step, he]

/-- Witness for C3 at concrete inputs: with complete partial `p1` first,
concatenation into the fresh target `f` fails wholly — `zz` is unknown,
`f` itself is already final, `p3` is incomplete — and the state is
unchanged. -/
theorem C3_concat_failure_witness :
    concatUploads exStore "f" (["p1"] ++ "zz" :: []) = .error .PartialNotFound ∧
      concatUploads exStore "f" (["p1"] ++ "f" :: []) = .error .PartialAlreadyFinal ∧
      concatUploads exStore "f" (["p1"] ++ "p3" :: []) = .error .PartialIncomplete ∧
      step exStore (Op.concat "f" (["p1"] ++ "p3" :: [])) = (exStore, none) := by
  have h1 := C3_concat_failure exStore "f" tUp ["p1"] [] "zz" rfl (by decide) (by decide)
  have h2 := C3_concat_failure exStore "f" tUp ["p1"] [] "f" rfl (by decide) (by decide)
  have h3 := C3_concat_failure exStore "f" tUp ["p1"] [] "p3" rfl (by decide) (by decide)
  have hinc := h3.2.2.1 pBad rfl rfl rfl (Or.inr (by decide))
  exact ⟨h1.1 rfl, h2.2.1 tUp rfl rfl, hinc, h3.2.2.2 _ hinc⟩

/-- C4: every upload's offset starts at 0 at creation, every reachable state
satisfies `0 ≤ offset` and `offset ≤ size` whenever the size is known, and
across any sequence of engine operations the offset of an upload never
decreases. -/
theorem C4_offset_invariants :
    (∀ s info s1 u, newUpload s info = .ok s1 →
        lookupKey s1.records info.ID = some u → u.info.Offset = 0) ∧
      (∀ s ops, StoreWF s → OffsetsOK (run s ops).1) ∧
      (∀ s ops id u u1, StoreWF s → lookupKey s.records id = some u →
        lookupKey (run s ops).1.records id = some u1 →
        u.info.Offset ≤ u1.info.Offset) := by
  refine ⟨?_, ?_, ?_⟩
  · intro s info s1 u hn hl
    obtain ⟨_, _, rfl⟩ := newUpload_ok_inv hn
    simp only at hl
    have hself : lookupKey ((info.ID, freshUpload info) :: s.records) info.ID
        = some (freshUpload info) := by
      simp [lookupKey]
    rw [hself] at hl
    injection hl with hl
    rw [← hl]
    simp [freshUpload]
  · intro s ops hs
    exact (StoreWF_run hs ops).1
  · intro s ops id u u1 hs hu hu1
    exact run_mono ops hs hu hu1

/-- Witness for C4 at concrete inputs: creating upload `a` in the empty store
yields offset 0 even though the declared metadata carried offset 5; after a
5-byte write the invariants still hold and the offset has not decreased. -/
theorem C4_offset_invariants_witness :
    (freshUpload upA.info).info.Offset = 0 ∧
      OffsetsOK (run exStore [Op.write "a" 5 [6, 7, 8, 9, 10] none 9]).1 ∧
      upA.info.Offset ≤ (writtenUpload upA [6, 7, 8, 9, 10] 9).info.Offset :=
  ⟨C4_offset_invariants.1 (Store.mk [] []) upA.info
      (Store.mk [(upA.info.ID, freshUpload upA.info)] [upA.info.ID]) (freshUpload upA.info)
      rfl (by decide),
   C4_offset_invariants.2.1 exStore [Op.write "a" 5 [6, 7, 8, 9, 10] none 9] (by decide),
   C4_offset_invariants.2.2 exStore [Op.write "a" 5 [6, 7, 8, 9, 10] none 9] "a" upA
      (writtenUpload upA [6, 7, 8, 9, 10] 9) (by decide) rfl (by decide)⟩

/-- C5: over any sequence of engine operations, the completion event of any
given upload fires at most once — in particular a retried zero-length write at
the final offset after completion fires no second event — and the event does
fire on either completion mode: a chunk write that makes the offset reach the
known size with the event not yet fired fires it, and a successful
concatenation finalizing a target whose event has not yet fired fires it; in
both cases the event carries the upload ID, final size, final offset and
metadata. -/
theorem C5_completion_exactly_once :
    (∀ s ops id, StoreWF s → countFor id (run s ops).2 ≤ 1) ∧
      (∀ s id off data ex now s1 n ev u, lookupKey s.records id = some u →
        writeChunk s id off data ex now = .ok (s1, n, ev) →
        u.info.SizeIsDeferred = false →
        u.info.Offset + (data.length : Int) = u.info.Size →
        u.completeFired = false →
        ev = some (mkEvent id { u.info with
          Offset := u.info.Offset + (data.length : Int) })) ∧
      (∀ s tid ids s1 ev t, lookupKey s.records tid = some t →
        t.completeFired = false →
        concatUploads s tid ids = .ok (s1, ev) →
        ∃ us, collectPartials s ids = .ok us ∧
          ev = some (mkEvent tid (concatInfo t ids us))) := by
  refine ⟨?_, ?_, ?_⟩
  · intro s ops id hs
    exact run_count_le_one id ops hs
  · intro s id off data ex now s1 n ev u hl hw hdef hsum hflag
    obtain ⟨u0, hl0, _, _, _, _, _, hev, _⟩ := writeChunk_ok_inv hw
    rw [hl] at hl0
    injection hl0 with hl0
    subst hl0
    rw [hev]
    unfold writeEvent
    rw [if_pos ⟨hdef, hsum, hflag⟩]
  · intro s tid ids s1 ev t hl hflag hcc
    obtain ⟨t0, us, hl0, _, hcp, hev, _⟩ := concatUploads_ok_inv hcc
    rw [hl] at hl0
    injection hl0 with hl0
    subst hl0
    refine ⟨us, hcp, ?_⟩
    rw [hev]
    unfold concatEvent
    rw [if_pos hflag]

/-- Witness for C5 at concrete inputs: writing the last 5 bytes of upload `a`
fires its completion event, concatenating `p1` and `p2` into the unfired
target `f` fires `f`'s completion event, and over the run that also retries a
zero-length write at the final offset, at most one completion event for `a`
fires. -/
theorem C5_completion_exactly_once_witness :
    countFor "a" (run exStore [Op.write "a" 5 [6, 7, 8, 9, 10] none 9,
        Op.write "a" 10 [] none 11]).2 ≤ 1 ∧
      ((some (mkEvent "a" { upA.info with Offset := 10 }) : Option CompletionEvent)
        = some (mkEvent "a" { upA.info with
            Offset := upA.info.Offset + (([6, 7, 8, 9, 10] : List Nat).length : Int) })) ∧
      (∃ us, collectPartials exStore ["p1", "p2"] = .ok us ∧
        (some (mkEvent "f" (concatInfo tUp ["p1", "p2"] [pUp1, pUp2]))
            : Option CompletionEvent)
          = some (mkEvent "f" (concatInfo tUp ["p1", "p2"] us))) :=
  ⟨C5_completion_exactly_once.1 exStore
      [Op.write "a" 5 [6, 7, 8, 9, 10] none 9, Op.write "a" 10 [] none 11] "a" (by decide),
   C5_completion_exactly_once.2.1 exStore "a" 5 [6, 7, 8, 9, 10] none 9
      { exStore with
          records := upsertKey exStore.records "a" (writtenUpload upA [6, 7, 8, 9, 10] 9) }
      5 (some (mkEvent "a" { upA.info with Offset := 10 })) upA rfl rfl rfl (by decide) rfl,
   C5_completion_exactly_once.2.2 exStore "f" ["p1", "p2"]
      { exStore with
          records := upsertKey exStore.records "f" (concatTarget tUp ["p1", "p2"] [pUp1, pUp2]) }
      (some (mkEvent "f" (concatInfo tUp ["p1", "p2"] [pUp1, pUp2]))) tUp rfl rfl rfl⟩

/-- C6: after `terminate(id)` succeeds, every subsequent operation referencing
`id` — get, read, serve, chunk write, concat input, or a second terminate —
fails with `NotFound` after any further sequence of engine operations, and the
ID can never be assigned to a new upload again. -/
theorem C6_terminate_notfound (s : Store) (id : String) (s1 : Store) (ops : List Op)
    (hs : StoreWF s) (ht : terminate s id = .ok s1) :
    getInfo (run s1 ops).1 id = .error .NotFound ∧
      getReader (run s1 ops).1 id = .error .NotFound ∧
      (∀ a b, serveContent (run s1 ops).1 id a b = .error .NotFound) ∧
      (∀ off data ex now, writeChunk (run s1 ops).1 id off data ex now = .error .NotFound) ∧
      (∀ tid ids, id ∈ ids → ∀ r, concatUploads (run s1 ops).1 tid ids ≠ .ok r) ∧
      (∀ info, info.ID = id → ∀ r, newUpload (run s1 ops).1 info ≠ .ok r) ∧
      terminate (run s1 ops).1 id = .error .NotFound := by
  obtain ⟨⟨u, hl⟩, rfl⟩ := terminate_ok_inv ht
  have hid : id ∈ s.usedIds := hs.2.1 (id, u) (mem_of_lookupKey_eq_some hl)
  have habs := run_absent (s := { s with records := removeKey s.records id }) ops hid
    (lookupKey_removeKey_self s.records id)
  refine ⟨?_, ?_, ?_, ?_, ?_, ?_, ?_⟩
  · unfold getInfo
    rw [habs.1]
  · unfold getReader
    rw [habs.1]
  · intro a b
    unfold serveContent
    rw [habs.1]
  · intro off data ex now
    unfold writeChunk
    rw [habs.1]
  · intro tid ids hmem r hok
    obtain ⟨s2, ev⟩ := r
    obtain ⟨t, us, _, _, hcp, _, _⟩ := concatUploads_ok_inv hok
    obtain ⟨u1, hl1⟩ := collectPartials_ok_lookup hcp id hmem
    rw [habs.1] at hl1
    exact Option.noConfusion hl1
  · intro info hinfo r hok
    obtain ⟨hused, _, _⟩ := newUpload_ok_inv hok
    exact hused (hinfo ▸ habs.2)
  · unfold terminate
    rw [habs.1]

/-- Witness for C6 at concrete inputs: after terminating upload `a` and then
attempting to recreate it, lookups, writes and creation under ID `a` all fail
with `NotFound` (respectively are rejected). -/
theorem C6_terminate_notfound_witness :
    getInfo (run { exStore with records := removeKey exStore.records "a" }
        [Op.create upA.info]).1 "a" = .error .NotFound ∧
      writeChunk (run { exStore with records := removeKey exStore.records "a" }
        [Op.create upA.info]).1 "a" 5 [1] none 9 = .error .NotFound ∧
      (∀ r, newUpload (run { exStore with records := removeKey exStore.records "a" }
        [Op.create upA.info]).1 upA.info ≠ .ok r) := by
  have h := C6_terminate_notfound exStore "a"
    { exStore with records := removeKey exStore.records "a" } [Op.create upA.info]
    (by decide) rfl
  exact ⟨h.1, h.2.2.2.1 5 [1] none 9, fun r => h.2.2.2.2.2.1 upA.info rfl r⟩

end GinFileUploader
